import Mathlib

/-
Shallow embedding of `src/lib.rs` (module `rh_hash_table`), a Robin Hood
hash table with linear probing, together with theorems settling the
specification claims.

Modelling conventions:
- Rust `usize`/`i64` indices and counters become `Nat`/`Int`; all index
  arithmetic in the source stays far below any overflow boundary on the
  inputs we consider, and the source's `% self.capacity` is modelled by
  `rustMod`, which like Rust's `%` operator panics on a zero divisor.
- Rust `f64` (`max_load_factor` and the load computation
  `num_entries as f64 / capacity as f64`) is modelled by `ℚ` with exact
  division, written `mkRat num_entries capacity` (which equals
  `(num_entries : ℚ) / capacity`, see `Rat.mkRat_eq_div`, and is
  kernel-computable); every comparison the claims exercise involves
  small rationals far from any rounding boundary.
- The seeded SipHash hasher (`RandomState`) is an external collaborator;
  it is modelled as an arbitrary function `hash : K → Nat` giving the
  `hasher.finish() as usize` value of a key. Concrete instantiations use
  `idHash` on `Nat` keys, a legitimate instance of the opaque contract.
- Rust panics (remainder by zero, out-of-bounds indexing) are the
  `.error .panicked` outcome; loops are given explicit fuel, and running
  out of fuel is the distinct `.error .fuelOut` outcome, so a `.ok`
  result coincides exactly with a terminating, non-panicking Rust run.
  The probe loop inside `insert` receives fuel `capacity`: the loop
  advances one slot per iteration and the table is unchanged while it
  runs, so after `capacity` iterations it has visited every slot and a
  run that has not placed its candidate by then never will (the Rust
  loop diverges); fuel `capacity` is therefore exact.
-/

namespace rh_hash_table

/-- Outcome channel for Rust runs that do not return normally: `panicked`
models a Rust panic (index out of bounds, remainder by zero), `fuelOut`
models a loop that has not finished within the given fuel. -/
inductive RErr : Type
  | panicked : RErr
  | fuelOut : RErr
deriving DecidableEq, Repr

/-- Decidable equality on `Except`, so that concrete runs of the
operations can be checked by `decide`. -/
instance {ε α : Type} [DecidableEq ε] [DecidableEq α] : DecidableEq (Except ε α)
  | .error e, .error f =>
    if h : e = f then isTrue (by rw [h]) else isFalse (by intro hh; cases hh; exact h rfl)
  | .error _, .ok _ => isFalse (by intro h; cases h)
  | .ok _, .error _ => isFalse (by intro h; cases h)
  | .ok a, .ok b =>
    if h : a = b then isTrue (by rw [h]) else isFalse (by intro hh; cases hh; exact h rfl)

/-- Entry of the table, mirroring `struct KeyValuePair<K, V>` with its
`i64` probing sequence length. -/
structure KeyValuePair (K V : Type) where
  key : K
  value : V
  probing_sequence_length : Int
deriving DecidableEq, Repr

/-- The table, mirroring `struct RobinHoodHashTable`: `capacity: usize`,
`num_entries: i64`, `max_load_factor: f64` (modelled as `ℚ`), and
`table: Vec<Option<KeyValuePair>>` (modelled as a `List`). The
`hasher_state` field is the external hasher, passed to the operations as
a function `K → Nat`. -/
structure RobinHoodHashTable (K V : Type) where
  capacity : Nat
  num_entries : Int
  max_load_factor : ℚ
  table : List (Option (KeyValuePair K V))
deriving DecidableEq, Repr

/-- Reading `self.table[i]`: Rust indexing panics when out of bounds. -/
def idxRead {α : Type} (l : List α) (i : Nat) : Except RErr α :=
  match l[i]? with
  | some a => .ok a
  | none => .error .panicked

/-- Writing `self.table[i] = a`: Rust indexing panics when out of bounds. -/
def idxWrite {α : Type} (l : List α) (i : Nat) (a : α) : Except RErr (List α) :=
  if i < l.length then .ok (l.set i a) else .error .panicked

/-- Rust's `%` on `usize`: panics on remainder by zero. -/
def rustMod (a b : Nat) : Except RErr Nat :=
  if b = 0 then .error .panicked else .ok (a % b)

/-- The slot advance of every loop in the source:
`hash_id += 1; if hash_id >= self.capacity { hash_id = 0; }`. -/
def wrapIdx (cap i : Nat) : Nat :=
  if i + 1 ≥ cap then 0 else i + 1

/-- Construction, mirroring `new` (lines 37-46): no validation of either
argument; `table: vec![None; capacity]`, `num_entries: 0`. -/
def new {K V : Type} (max_load : ℚ) (capacity : Nat) : RobinHoodHashTable K V :=
  { capacity := capacity
    num_entries := 0
    max_load_factor := max_load
    table := List.replicate capacity none }

/-- The `loop` of `insert` (lines 57-83), one fuel per iteration. The
`Some` branch reads a CLONE of the slot into `bucket`; the conditional
`bucket.psl > key_value.psl` overwrites only that local clone with the
candidate and makes the old occupant the new candidate, so the table is
never written in this branch — faithfully preserving the source, where
`bucket = Some(key_value.clone())` mutates a local. Afterwards the
candidate's psl is incremented and the index advances. The `None` branch
stores the candidate and increments `num_entries`. -/
def insertLoop {K V : Type} :
    Nat → RobinHoodHashTable K V → KeyValuePair K V → Nat →
    Except RErr (RobinHoodHashTable K V)
  | 0, _, _, _ => .error .fuelOut
  | fuel + 1, t, key_value, hash_id =>
    match idxRead t.table hash_id with
    | .error e => .error e
    | .ok bucket =>
      match bucket with
      | some occ =>
        let kv1 :=
          if occ.probing_sequence_length > key_value.probing_sequence_length
          then occ else key_value
        insertLoop fuel t
          { kv1 with probing_sequence_length := kv1.probing_sequence_length + 1 }
          (wrapIdx t.capacity hash_id)
      | none =>
        match idxWrite t.table hash_id (some key_value) with
        | .error e => .error e
        | .ok tbl => .ok { t with table := tbl, num_entries := t.num_entries + 1 }

/-- The `for` loop of `build_resized_table` (lines 97-102): walk the old
slots in original index order and re-insert every occupied entry through
the given insert function, threading the table state. -/
def reinsertList {K V : Type}
    (ins : RobinHoodHashTable K V → K → V → Except RErr (RobinHoodHashTable K V)) :
    RobinHoodHashTable K V → List (Option (KeyValuePair K V)) →
    Except RErr (RobinHoodHashTable K V)
  | t, [] => .ok t
  | t, none :: rest => reinsertList ins t rest
  | t, some e :: rest =>
    match ins t e.key e.value with
    | .error err => .error err
    | .ok t1 => reinsertList ins t1 rest

/-- Insertion, mirroring `insert` (lines 48-89): build the candidate with
psl 0, compute the home slot `hash(key) % capacity` (panics when the
capacity is 0), run the probe loop, then recompute the load factor and,
when `load >= max_load_factor`, rebuild into a doubled array exactly as
`build_resized_table` (lines 91-103) does: fresh `None` array of length
`capacity * 2`, capacity doubled, old slots re-inserted in index order
through this same `insert` (which is where the recursion, and hence the
fuel, lives). `num_entries` is NOT reset before the re-insertions,
faithfully to the source. -/
def insert {K V : Type} (hash : K → Nat) :
    Nat → RobinHoodHashTable K V → K → V → Except RErr (RobinHoodHashTable K V)
  | 0, _, _, _ => .error .fuelOut
  | fuel + 1, t, key, value =>
    match rustMod (hash key) t.capacity with
    | .error e => .error e
    | .ok hash_id =>
      match insertLoop t.capacity t ⟨key, value, 0⟩ hash_id with
      | .error e => .error e
      | .ok t1 =>
        if mkRat t1.num_entries t1.capacity ≥ t1.max_load_factor then
          reinsertList (insert hash fuel)
            { t1 with
              table := List.replicate (t1.capacity * 2) none
              capacity := t1.capacity * 2 }
            t1.table
        else .ok t1

/-- Growth, mirroring `build_resized_table` (lines 91-103): allocate
`vec![None; capacity * 2]`, keep the old slots aside, double the
capacity, and re-insert every occupied old entry in original index order
via `insert`. -/
def build_resized_table {K V : Type} (hash : K → Nat) (fuel : Nat)
    (t : RobinHoodHashTable K V) : Except RErr (RobinHoodHashTable K V) :=
  reinsertList (insert hash fuel)
    { t with
      table := List.replicate (t.capacity * 2) none
      capacity := t.capacity * 2 }
    t.table

/-- The `loop` of `contains` (lines 142-165): the local
`probing_sequence_len` starts at 0; an occupied slot first checks the
early-termination rule `local psl > stored psl → false`, then the key,
then advances; an empty slot means absent. -/
def containsLoop {K V : Type} [DecidableEq K] :
    Nat → RobinHoodHashTable K V → K → Int → Nat → Except RErr Bool
  | 0, _, _, _, _ => .error .fuelOut
  | fuel + 1, t, key, psl, hash_id =>
    match idxRead t.table hash_id with
    | .error e => .error e
    | .ok none => .ok false
    | .ok (some occ) =>
      if psl > occ.probing_sequence_length then .ok false
      else if occ.key = key then .ok true
      else containsLoop fuel t key (psl + 1) (wrapIdx t.capacity hash_id)

/-- Lookup, mirroring `contains` (lines 137-167). -/
def contains {K V : Type} [DecidableEq K] (hash : K → Nat) (fuel : Nat)
    (t : RobinHoodHashTable K V) (key : K) : Except RErr Bool :=
  match rustMod (hash key) t.capacity with
  | .error e => .error e
  | .ok hash_id => containsLoop fuel t key 0 hash_id

/-- The `loop` of `remove` (lines 109-133): scan from the home slot; a
matching key clears that slot (no count change, no backward shift — the
source does neither) and returns true; an empty slot returns false; a
non-matching occupant just advances. -/
def removeLoop {K V : Type} [DecidableEq K] :
    Nat → RobinHoodHashTable K V → K → Nat →
    Except RErr (Bool × RobinHoodHashTable K V)
  | 0, _, _, _ => .error .fuelOut
  | fuel + 1, t, key, hash_id =>
    match idxRead t.table hash_id with
    | .error e => .error e
    | .ok none => .ok (false, t)
    | .ok (some occ) =>
      if occ.key = key then
        match idxWrite t.table hash_id none with
        | .error e => .error e
        | .ok tbl => .ok (true, { t with table := tbl })
      else removeLoop fuel t key (wrapIdx t.capacity hash_id)

/-- Removal, mirroring `remove` (lines 105-135). -/
def remove {K V : Type} [DecidableEq K] (hash : K → Nat) (fuel : Nat)
    (t : RobinHoodHashTable K V) (key : K) :
    Except RErr (Bool × RobinHoodHashTable K V) :=
  match rustMod (hash key) t.capacity with
  | .error e => .error e
  | .ok hash_id => removeLoop fuel t key hash_id

/-- Identity hash on `Nat` keys: one concrete instance of the opaque
seeded-hasher contract, used for concrete executions. -/
def idHash (n : Nat) : Nat := n

/-! ## Helper notions and lemmas -/

/-- A slot read off a valid index is an element of the table list. -/
theorem mem_of_idx {α : Type} {l : List α} {n : Nat} {a : α} (h : l[n]? = some a) :
    a ∈ l := by
  rw [← List.get?_eq_getElem?] at h
  exact List.get?_mem h

/-- One slot does not hold `key`. -/
def slotAvoids {K V : Type} [DecidableEq K] (key : K) :
    Option (KeyValuePair K V) → Bool
  | none => true
  | some occ => decide (occ.key ≠ key)

/-- The key is absent from the table: no occupied slot holds it. -/
def keyAbsent {K V : Type} [DecidableEq K] (t : RobinHoodHashTable K V) (key : K) :
    Prop :=
  ∀ slot ∈ t.table, slotAvoids key slot = true

instance {K V : Type} [DecidableEq K] (t : RobinHoodHashTable K V) (key : K) :
    Decidable (keyAbsent t key) :=
  inferInstanceAs (Decidable (∀ slot ∈ t.table, slotAvoids key slot = true))

/-- The remove loop, run on a table in which the key is absent, can only
return `(false, t)` with the table untouched: the only mutation in the
loop body is guarded by a key match. -/
theorem removeLoop_absent {K V : Type} [DecidableEq K] (key : K) :
    ∀ (fuel : Nat) (t : RobinHoodHashTable K V) (i : Nat)
      (p : Bool × RobinHoodHashTable K V),
      keyAbsent t key → removeLoop fuel t key i = .ok p → p = (false, t) := by
  intro fuel
  induction fuel with
  | zero =>
    intro t i p _ h
    simp [removeLoop] at h
  | succ fuel ih =>
    intro t i p habs h
    rcases hget : t.table[i]? with _ | bucket
    · simp [removeLoop, idxRead, hget] at h
    · cases bucket with
      | none =>
        simp only [removeLoop, idxRead, hget] at h
        exact (Except.ok.inj h).symm
      | some occ =>
        have hne : occ.key ≠ key := by
          have hmem := habs (some occ) (mem_of_idx hget)
          simpa [slotAvoids] using hmem
        simp only [removeLoop, idxRead, hget, if_neg hne] at h
        exact ih t _ p habs h

/-- Advancing by `wrapIdx` stays below the capacity. -/
theorem wrapIdx_lt (cap i : Nat) (h : 0 < cap) : wrapIdx cap i < cap := by
  unfold wrapIdx
  split <;> omega

/-- Forward probe distance from slot `i` to slot `j`, wrapping at `cap`. -/
def probeDist (cap i j : Nat) : Nat := (j + cap - i) % cap

theorem probeDist_lt (cap i j : Nat) (h : 0 < cap) : probeDist cap i j < cap :=
  Nat.mod_lt _ h

/-- Advancing one slot decreases the probe distance to any other slot by
exactly one. -/
theorem probeDist_step (cap i j : Nat) (hi : i < cap) (hj : j < cap) (hne : i ≠ j) :
    probeDist cap (wrapIdx cap i) j + 1 = probeDist cap i j := by
  unfold probeDist wrapIdx
  by_cases hc : i + 1 ≥ cap
  · rw [if_pos hc]
    have hieq : i = cap - 1 := by omega
    subst hieq
    have h0 : j + cap - 0 = j + cap := by omega
    have h1 : j + cap - (cap - 1) = j + 1 := by omega
    have h2 : j + 1 < cap := by omega
    rw [h0, h1, Nat.add_mod_right, Nat.mod_eq_of_lt hj, Nat.mod_eq_of_lt h2]
  · rw [if_neg hc]
    have h1 : i + 1 < cap := by omega
    have harg : j + cap - (i + 1) = j + cap - i - 1 := by omega
    have hd1 : 1 ≤ j + cap - i := by omega
    have hdne : j + cap - i ≠ cap := by omega
    have hdlt : j + cap - i < 2 * cap := by omega
    rw [harg]
    rcases lt_or_gt_of_ne hdne with hlt | hgt
    · rw [Nat.mod_eq_of_lt (by omega), Nat.mod_eq_of_lt hlt]
      omega
    · rw [Nat.mod_eq_sub_mod (by omega), Nat.mod_eq_sub_mod (le_of_lt hgt),
        Nat.mod_eq_of_lt (by omega), Nat.mod_eq_of_lt (by omega)]
      omega

/-- With an empty slot within `fuel` forward steps, the probe loop of
`insert` places its candidate and returns. -/
theorem insertLoop_terminates {K V : Type} :
    ∀ (fuel : Nat) (t : RobinHoodHashTable K V) (kv : KeyValuePair K V) (i : Nat),
      t.table.length = t.capacity → i < t.capacity →
      (∃ j, j < t.capacity ∧ t.table[j]? = some none ∧
        probeDist t.capacity i j < fuel) →
      ∃ t', insertLoop fuel t kv i = .ok t' := by
  intro fuel
  induction fuel with
  | zero =>
    rintro t kv i _ _ ⟨j, _, _, hdist⟩
    omega
  | succ fuel ih =>
    rintro t kv i hlen hi ⟨j, hj, hempty, hdist⟩
    rcases hget : t.table[i]? with _ | bucket
    · rw [List.getElem?_eq_none_iff] at hget
      omega
    · cases bucket with
      | none =>
        have hilen : i < t.table.length := by omega
        refine ⟨{ t with table := t.table.set i (some kv), num_entries := t.num_entries + 1 }, ?_⟩
        simp [insertLoop, idxRead, hget, idxWrite, hilen]
      | some occ =>
        have hne : i ≠ j := by
          intro he
          rw [he, hempty] at hget
          cases hget
        have hstep := probeDist_step t.capacity i j hi hj hne
        have hw := wrapIdx_lt t.capacity i (by omega)
        simp only [insertLoop, idxRead, hget]
        exact ih t _ (wrapIdx t.capacity i) hlen hw ⟨j, hj, hempty, by omega⟩

/-- Unfolding a successful `rustMod`. -/
theorem rustMod_ok {a b r : Nat} (h : rustMod a b = .ok r) : 0 < b ∧ r = a % b := by
  by_cases hb : b = 0
  · simp [rustMod, hb] at h
  · simp [rustMod, hb] at h
    exact ⟨Nat.pos_of_ne_zero hb, h.symm⟩

/-- Facts about a successful probe-loop run: capacity and maximum load
factor are unchanged, the entry count rises by exactly one, and the
resulting table has at least one occupied slot (the placed candidate). -/
theorem insertLoop_ok_facts {K V : Type} :
    ∀ (fuel : Nat) (t : RobinHoodHashTable K V) (kv : KeyValuePair K V) (i : Nat)
      (t' : RobinHoodHashTable K V),
      insertLoop fuel t kv i = .ok t' →
      t'.capacity = t.capacity ∧ t'.max_load_factor = t.max_load_factor ∧
        t'.num_entries = t.num_entries + 1 ∧ ∃ slot ∈ t'.table, slot.isSome = true := by
  intro fuel
  induction fuel with
  | zero =>
    intro t kv i t' h
    simp [insertLoop] at h
  | succ fuel ih =>
    intro t kv i t' h
    rcases hget : t.table[i]? with _ | bucket
    · simp [insertLoop, idxRead, hget] at h
    · cases bucket with
      | some occ =>
        simp only [insertLoop, idxRead, hget] at h
        exact ih t _ (wrapIdx t.capacity i) t' h
      | none =>
        by_cases hilen : i < t.table.length
        · simp only [insertLoop, idxRead, hget, idxWrite, if_pos hilen] at h
          have ht' := Except.ok.inj h
          subst ht'
          refine ⟨rfl, rfl, rfl, some kv, ?_, rfl⟩
          apply mem_of_idx (n := i)
          simp [List.getElem?_set, hilen]
        · simp [insertLoop, idxRead, hget, idxWrite, if_neg hilen] at h

/-- The state a successful insert leaves behind: positive capacity and a
load strictly below the maximum load factor. -/
def goodLoad {K V : Type} (t : RobinHoodHashTable K V) : Prop :=
  0 < t.capacity ∧ mkRat t.num_entries t.capacity < t.max_load_factor

/-- Re-inserting from a slot list holding no entries is the identity. -/
theorem reinsertList_allNone {K V : Type}
    (ins : RobinHoodHashTable K V → K → V → Except RErr (RobinHoodHashTable K V)) :
    ∀ (l : List (Option (KeyValuePair K V))) (t : RobinHoodHashTable K V),
      (∀ slot ∈ l, slot = none) → reinsertList ins t l = .ok t := by
  intro l
  induction l with
  | nil =>
    intro t _
    rfl
  | cons slot rest ih =>
    intro t hall
    have hhead : slot = none := hall slot (List.mem_cons_self _ _)
    subst hhead
    simp only [reinsertList]
    exact ih t fun s hs => hall s (List.mem_cons_of_mem _ hs)

/-- If every terminating insert at this fuel leaves a good load, so does
the re-insertion loop of growth, provided it re-inserts at least one
entry (the last insert to run leaves the final state). -/
theorem reinsertList_good {K V : Type} (hash : K → Nat) (fuel : Nat)
    (hP : ∀ (t : RobinHoodHashTable K V) (k : K) (v : V)
      (t' : RobinHoodHashTable K V), insert hash fuel t k v = .ok t' → goodLoad t') :
    ∀ (l : List (Option (KeyValuePair K V))) (t t' : RobinHoodHashTable K V),
      (∃ slot ∈ l, slot.isSome = true) →
      reinsertList (insert hash fuel) t l = .ok t' → goodLoad t' := by
  intro l
  induction l with
  | nil =>
    rintro t t' ⟨slot, hmem, _⟩ _
    exact absurd hmem (List.not_mem_nil slot)
  | cons s rest ih =>
    rintro t t' hsome h
    cases s with
    | none =>
      simp only [reinsertList] at h
      apply ih t t' ?_ h
      rcases hsome with ⟨slot, hmem, hs⟩
      rcases List.mem_cons.mp hmem with heq | hmem'
      · subst heq
        simp at hs
      · exact ⟨slot, hmem', hs⟩
    | some e =>
      rcases hins : insert hash fuel t e.key e.value with err | t1
      · simp [reinsertList, hins] at h
      · simp only [reinsertList, hins] at h
        by_cases hrest : ∃ slot ∈ rest, slot.isSome = true
        · exact ih t1 t' hrest h
        · push_neg at hrest
          have hall : ∀ slot ∈ rest, slot = none := by
            intro s hs
            have hns := hrest s hs
            cases s
            · rfl
            · simp at hns
          rw [reinsertList_allNone _ rest t1 hall] at h
          have ht' := Except.ok.inj h
          subst ht'
          exact hP t e.key e.value t1 hins

/-- Every terminating, non-panicking insert leaves the load strictly
below the maximum load factor, by induction on the growth recursion: the
final action of any completed insert is a load check that either passed
or handed the state to a growth pass whose own last re-insertion passed
its check. -/
theorem insert_good {K V : Type} (hash : K → Nat) :
    ∀ (fuel : Nat) (t : RobinHoodHashTable K V) (k : K) (v : V)
      (t' : RobinHoodHashTable K V),
      insert hash fuel t k v = .ok t' → goodLoad t' := by
  intro fuel
  induction fuel with
  | zero =>
    intro t k v t' h
    simp [insert] at h
  | succ fuel ih =>
    intro t k v t' h
    rcases hm : rustMod (hash k) t.capacity with e | hid
    · simp [insert, hm] at h
    · rcases hl : insertLoop t.capacity t ⟨k, v, 0⟩ hid with e | t1
      · simp [insert, hm, hl] at h
      · obtain ⟨hcap, _, _, hsome⟩ := insertLoop_ok_facts t.capacity t _ hid t1 hl
        obtain ⟨hbpos, _⟩ := rustMod_ok hm
        simp only [insert, hm, hl] at h
        by_cases hge : mkRat t1.num_entries t1.capacity ≥ t1.max_load_factor
        · rw [if_pos hge] at h
          exact reinsertList_good hash fuel ih t1.table _ t' hsome h
        · rw [if_neg hge] at h
          have ht' := Except.ok.inj h
          subst ht'
          exact ⟨by omega, lt_of_not_ge hge⟩

/-! ## Claims settled by concrete executions of the code -/

/-- Claim C1: the spec demands that `remove` on a present key return true,
clear the slot, decrement `count` by one, and run backward-shift repair.
The code (lines 105-135) only clears the slot and returns true: it never
touches `num_entries` and performs no backward shift. Concrete run with
the identity hash, capacity 4: after `insert(0,10)` and `insert(4,20)`
(key 4 homes at slot 0 and lands displaced at slot 1 with psl 1),
`remove(0)` returns true but leaves `num_entries` at 2 (the claim says 1)
and leaves slot 1 holding `(4, 20, psl 1)` unmoved (the claim says it is
shifted back to slot 0 with psl 0). As a result the table is corrupted:
`contains(4)` now probes home slot 0, finds it `Empty`, and wrongly
reports false. -/
theorem C1_remove_skips_count_and_repair :
    (do
      let t1 ← insert idHash 2 (new (mkRat 9 10) 4 : RobinHoodHashTable Nat Nat) 0 10
      let t2 ← insert idHash 2 t1 4 20
      remove idHash 5 t2 0) =
      .ok (true, ⟨4, 2, mkRat 9 10, [none, some ⟨4, 20, 1⟩, none, none]⟩) ∧
    (do
      let t1 ← insert idHash 2 (new (mkRat 9 10) 4 : RobinHoodHashTable Nat Nat) 0 10
      let t2 ← insert idHash 2 t1 4 20
      let r ← remove idHash 5 t2 0
      contains idHash 5 r.2 4) = .ok false :=
  ⟨by decide, by decide⟩

/-- Claim C2: the spec demands a swap exactly when the occupant's stored
psl is strictly LESS than the candidate's current psl, with the incoming
candidate stored in the slot. The code (lines 57-83) tests the inverted
condition `occupant.psl > candidate.psl`, and its "swap" assigns the
candidate into `bucket`, a local CLONE of the slot, so the table is never
written: the incoming candidate is discarded and the occupant is
re-inserted further on, duplicated. Concrete run (identity hash,
capacity 4): after `insert(0,10)` and `insert(4,20)` (slot 1 holds
`(4,20,psl 1)`), `insert(1,30)` visits its home slot 1 where the
occupant's psl 1 > candidate's psl 0; per the claim no swap may happen
and `(1,30)` must land in slot 2 — instead the code drops `(1,30)`
entirely and stores a second copy of `(4,20)` in slot 2. -/
theorem C2_swap_inverted_and_lost :
    (do
      let t1 ← insert idHash 2 (new (mkRat 9 10) 4 : RobinHoodHashTable Nat Nat) 0 10
      let t2 ← insert idHash 2 t1 4 20
      insert idHash 2 t2 1 30) =
      .ok ⟨4, 3, mkRat 9 10, [some ⟨0, 10, 0⟩, some ⟨4, 20, 1⟩, some ⟨4, 20, 2⟩, none]⟩ :=
  by decide

/-- Claim C3: the spec demands that inserting an existing key replace the
value in place, leaving one slot for the key and `count` unchanged. The
code's insert loop (lines 57-83) never compares keys: re-inserting key 0
walks past the existing `(0,10)` entry and places a second entry
`(0,40,psl 1)` in the next slot, incrementing `num_entries` to 2 — two
occupied slots now hold key 0. -/
theorem C3_insert_duplicates_existing_key :
    (do
      let t1 ← insert idHash 2 (new (mkRat 9 10) 4 : RobinHoodHashTable Nat Nat) 0 10
      insert idHash 2 t1 0 40) =
      .ok ⟨4, 2, mkRat 9 10, [some ⟨0, 10, 0⟩, some ⟨0, 40, 1⟩, none, none]⟩ :=
  by decide

/-- Claim C4: the spec demands that growth leave `count` unchanged. In
`build_resized_table` (lines 91-103) `num_entries` is never reset before
the old entries are re-inserted through `insert`, which increments it
once per entry: growing a table holding one entry with `count` 1 yields
`count` 2 (in general `count` becomes old `count` + number of occupied
slots). Capacity doubling and index-order re-insertion do happen, and in
this one-entry run the entry set is preserved, but the count clause
fails. -/
theorem C4_growth_inflates_count :
    (do
      let t1 ← insert idHash 2 (new (mkRat 9 10) 2 : RobinHoodHashTable Nat Nat) 0 10
      build_resized_table idHash 3 t1) =
      .ok ⟨4, 2, mkRat 9 10, [some ⟨0, 10, 0⟩, none, none, none]⟩ :=
  by decide

/-- Claim C5: the spec's round-trip property says that immediately after
`insert(k, v)`, `contains(k)` is true (and `get(k)` is `v`; the crate
exposes no `get` at all, so even the weaker `contains` half suffices to
settle the claim). Because of the broken displacement step documented at
claim C2, `insert(1,30)` into a table whose slot 1 holds a displaced
entry discards the new pair entirely, and `contains(1)` immediately
afterwards returns false. -/
theorem C5_round_trip_fails :
    (do
      let t1 ← insert idHash 2 (new (mkRat 9 10) 4 : RobinHoodHashTable Nat Nat) 0 10
      let t2 ← insert idHash 2 t1 4 20
      let t3 ← insert idHash 2 t2 1 30
      contains idHash 5 t3 1) = .ok false :=
  by decide

/-- Claim C8, counterexample: the claim says `new` fails with
`InvalidConfiguration` whenever `max_load_factor` is outside `(0,1)` or
the initial capacity is zero. The source `new` (lines 37-46) has no
error path whatsoever: called with `max_load_factor = 2` AND
`initial_capacity = 0` (both constraints violated at once) it returns an
ordinary table handle. -/
theorem C8_invalid_config_accepted :
    (new 2 0 : RobinHoodHashTable Nat Nat) =
      { capacity := 0, num_entries := 0, max_load_factor := 2, table := [] } :=
  rfl

/-- Claim C8, amended: `new(max_load_factor, initial_capacity)` performs
no validation; for every `max_load_factor` and `initial_capacity`
(including values violating the documented constraints) it returns a
table handle with exactly the given parameters, zero entries and an
all-empty backing array — and such a handle is functional: an insert
into a table built with the out-of-range load factor 2 succeeds
normally. -/
theorem C8_new_never_fails (m : ℚ) (c : Nat) :
    (new m c : RobinHoodHashTable Nat Nat) =
      { capacity := c, num_entries := 0, max_load_factor := m,
        table := List.replicate c none } ∧
    insert idHash 2 (new (mkRat 2 1) 1 : RobinHoodHashTable Nat Nat) 5 7 =
      .ok ⟨1, 1, mkRat 2 1, [some ⟨5, 7, 0⟩]⟩ :=
  ⟨rfl, by decide⟩

/-- Claim C10: `new` accepts `initial_capacity = 0` and returns a table
handle, and on such a table `insert`, `contains` and `remove` all panic,
because each first computes `hasher.finish() as usize % self.capacity`
(insert line 56, remove line 108, contains line 141), a remainder by
zero when the capacity is 0. The `fuel + 1` on insert only skips the
fuel-exhaustion artifact of the embedding: the panic happens before the
probe loop is ever entered. -/
theorem C10_zero_capacity_panics (m : ℚ) (fuel k v : Nat) :
    (new m 0 : RobinHoodHashTable Nat Nat) =
      { capacity := 0, num_entries := 0, max_load_factor := m, table := [] } ∧
    insert idHash (fuel + 1) (new m 0 : RobinHoodHashTable Nat Nat) k v =
      .error .panicked ∧
    contains idHash fuel (new m 0 : RobinHoodHashTable Nat Nat) k = .error .panicked ∧
    remove idHash fuel (new m 0 : RobinHoodHashTable Nat Nat) k = .error .panicked := by
  refine ⟨rfl, ?_, ?_, ?_⟩ <;> simp [insert, contains, remove, new, rustMod, idHash]

/-! ## Proved claims -/

/-- Claim C7: `remove(k)` on a key not present in the table returns
`false` and leaves the table completely unchanged — `num_entries` is not
mutated and no slot is mutated. Stated for every terminating,
non-panicking run (`.ok p`): whenever the remove loop of the source
(lines 105-135) returns at all on an absent key, the result is exactly
`(false, t)` with `t` the untouched input table, since the loop's only
write is guarded by a key match and its empty-slot exit returns the
table as is. -/
theorem C7_remove_absent_no_mutation {K V : Type} [DecidableEq K] (hash : K → Nat)
    (fuel : Nat) (t : RobinHoodHashTable K V) (key : K)
    (p : Bool × RobinHoodHashTable K V) (habs : keyAbsent t key)
    (h : remove hash fuel t key = .ok p) :
    remove hash fuel t key = .ok (false, t) := by
  rcases hm : rustMod (hash key) t.capacity with e | hid
  · exact absurd h (by simp [remove, hm])
  · have hr : remove hash fuel t key = removeLoop fuel t key hid := by
      simp [remove, hm]
    rw [hr] at h ⊢
    rw [removeLoop_absent key fuel t hid p habs h] at h
    exact h

/-- Witness for claim C7: removing the absent key 1 from a concrete
one-entry table returns `false` and the identical table. -/
theorem C7_witness :
    remove idHash 5
        (⟨4, 1, mkRat 9 10, [some ⟨0, 10, 0⟩, none, none, none]⟩ :
          RobinHoodHashTable Nat Nat) 1 =
      .ok (false, ⟨4, 1, mkRat 9 10, [some ⟨0, 10, 0⟩, none, none, none]⟩) :=
  C7_remove_absent_no_mutation idHash 5 _ 1
    (false, ⟨4, 1, mkRat 9 10, [some ⟨0, 10, 0⟩, none, none, none]⟩)
    (by decide) (by decide)

/-- Claim C9: on a table whose backing array has the right length and at
least one `Empty` slot, the probe loop of `insert` (lines 57-83),
started at the home slot `hash(key) % capacity` with a fresh psl-0
candidate, terminates and places its candidate after visiting at most
`capacity` slots. The fuel argument counts visited slots, so running the
loop with fuel exactly `capacity` and obtaining a result IS the bound:
the source's `insert` is modelled as invoking this very loop with this
very fuel. (The growth step that may follow the placement is a separate
concern, settled at claims C4 and C6.) -/
theorem C9_insert_probe_terminates {K V : Type} (hash : K → Nat)
    (t : RobinHoodHashTable K V) (key : K) (value : V)
    (hlen : t.table.length = t.capacity) (hpos : 0 < t.capacity)
    (hempty : ∃ j, j < t.capacity ∧ t.table[j]? = some none) :
    ∃ t', insertLoop t.capacity t ⟨key, value, 0⟩ (hash key % t.capacity) = .ok t' := by
  rcases hempty with ⟨j, hj, he⟩
  exact insertLoop_terminates t.capacity t _ _ hlen (Nat.mod_lt _ hpos)
    ⟨j, hj, he, probeDist_lt _ _ _ hpos⟩

/-- Claim C6: immediately after every insert that completes (including
any growth it triggers), `count / capacity <= max_load_factor` — in fact
strictly below it. The growth trigger is literally the post-condition
branch of `insert` (lines 85-88): after the placement, the load
`num_entries / capacity` is compared against `max_load_factor` and
growth runs exactly when it is `>=` — never lazily on a full table — and
the proof of the bound proceeds by induction on that very recursion. -/
theorem C6_load_factor_bound {K V : Type} (hash : K → Nat) (fuel : Nat)
    (t : RobinHoodHashTable K V) (k : K) (v : V) (t' : RobinHoodHashTable K V)
    (h : insert hash fuel t k v = .ok t') :
    (t'.num_entries : ℚ) / (t'.capacity : ℚ) ≤ t'.max_load_factor := by
  obtain ⟨hpos, hlt⟩ := insert_good hash fuel t k v t' h
  have hmk : mkRat t'.num_entries t'.capacity =
      (t'.num_entries : ℚ) / (t'.capacity : ℚ) := by
    rw [Rat.mkRat_eq_divInt, Rat.divInt_eq_div]
    norm_cast
  rw [← hmk]
  exact le_of_lt hlt

/-- Witness for claim C6: inserting key 0 into the empty capacity-4
table leaves load 1/4, below the maximum load factor 9/10. -/
theorem C6_witness :
    (((⟨4, 1, mkRat 9 10, [some ⟨0, 10, 0⟩, none, none, none]⟩ :
        RobinHoodHashTable Nat Nat).num_entries : ℚ) /
      ((⟨4, 1, mkRat 9 10, [some ⟨0, 10, 0⟩, none, none, none]⟩ :
        RobinHoodHashTable Nat Nat).capacity : ℚ)) ≤
      (⟨4, 1, mkRat 9 10, [some ⟨0, 10, 0⟩, none, none, none]⟩ :
        RobinHoodHashTable Nat Nat).max_load_factor :=
  C6_load_factor_bound idHash 2 (new (mkRat 9 10) 4) 0 10 _ (by decide)

/-- Witness for claim C9: the probe loop with fuel = capacity = 2 places
key 5 into the empty two-slot table. -/
theorem C9_witness :
    0 < 2 ∧
    ∃ t', insertLoop 2 (new (mkRat 9 10) 2 : RobinHoodHashTable Nat Nat) ⟨5, 7, 0⟩
      (idHash 5 % 2) = .ok t' :=
  ⟨by decide,
    C9_insert_probe_terminates idHash (new (mkRat 9 10) 2) 5 7 (by decide) (by decide)
      ⟨0, by decide, by decide⟩⟩

end rh_hash_table
